import Mathlib

/-!
Shallow embedding of `src/memoryAllocator.c`, an sbrk-based heap allocator
with an intrusive singly linked list of block headers, and proofs about its
allocate (`malloc`), zero-allocate (`calloc`), resize (`realloc`) and
release (`free`) operations.

Modelling choices:
* Addresses and `size_t` values are `Nat`; `size_t` arithmetic that can wrap
  is taken modulo `wordMod = 2 ^ 64` exactly where the C code computes it.
* A null pointer is the address `0`.
* The directory (the `head`/`tail` list linked through `s.next`) is a Lean
  list of headers in head-to-tail order; a header's `next` pointer is the
  address of its successor in the list (`nextOf` below recovers it).
* The program break is an explicit `brk` field; `sbrk(n)` either succeeds
  (returns the old break and advances `brk` by `n`) or fails, which is
  determined by an explicit `sbrkOk : Bool` argument standing for the
  operating system's decision.
* Byte memory is a function `Nat → Nat`; `memset`/`memcpy` update it.
* The C code reads a header directly at `pointer - sizeof(header_t)`; the
  model recovers that header by looking up the address in the directory,
  which is the same header for any pointer derived from a block that is
  still in the directory (dangling pointers are undefined behaviour in the
  C code and are modelled as a no-op lookup failure).
* The global pthread mutex serialises the operations; in this sequential
  embedding each operation is a single atomic state transition, so the lock
  has no observable effect and is not represented.
-/

namespace MemAlloc

/-- One more than the largest `size_t` value: the modulus of 64-bit
`size_t` arithmetic. -/
def wordMod : Nat := 2 ^ 64

/-- `sizeof(header_t)`: the header union is padded to the 16-byte `ALIGN`
stub (`union header { struct { size_t size; unsigned is_free; union header
*next; } s; ALIGN stub; }`). -/
def headerSize : Nat := 16

/-- A block header (`union header`, field `s`): payload size, free flag and
its position in the directory.  The `next` link of the C struct is
represented by list order (see `nextOf`). -/
structure Header where
  addr : Nat
  size : Nat
  is_free : Bool
  deriving DecidableEq

/-- The allocator's global state: the directory (`head`/`tail` list in
head-to-tail order), the current program break, and byte memory. -/
structure AState where
  blocks : List Header
  brk : Nat
  mem : Nat → Nat

/-- `get_free_block(size)`: walk from `head` and return the first header
that is free and at least `size` bytes big. -/
def get_free_block (blocks : List Header) (size : Nat) : Option Header :=
  blocks.find? (fun h => h.is_free && decide (size ≤ h.size))

/-- The in-place `header->s.is_free = 0` store performed by `malloc` on the
header returned by `get_free_block`: clear the free flag of the first
free-and-fitting header. -/
def clearFirstFit (blocks : List Header) (size : Nat) : List Header :=
  match blocks with
  | [] => []
  | h :: t =>
    if h.is_free && decide (size ≤ h.size) then { h with is_free := false } :: t
    else h :: clearFirstFit t size

/-- The in-place `header->s.is_free = 1` store performed by `free`: set the
free flag of the header at address `a`. -/
def markFreeAt (blocks : List Header) (a : Nat) : List Header :=
  blocks.map (fun h => if h.addr = a then { h with is_free := true } else h)

/-- `memset(dst, v, n)` on the byte memory. -/
def memset (m : Nat → Nat) (dst v n : Nat) : Nat → Nat :=
  fun a => if dst ≤ a ∧ a < dst + n then v else m a

/-- `memcpy(dst, src, n)` on the byte memory. -/
def memcpy (m : Nat → Nat) (dst src n : Nat) : Nat → Nat :=
  fun a => if dst ≤ a ∧ a < dst + n then m (src + (a - dst)) else m a

/-- `malloc(size)`.  Null on zero size; otherwise reuse the first fitting
free block, else carve `sizeof(header_t) + size` bytes (computed in
`size_t` arithmetic) from the break.  `sbrkOk` is the operating system's
answer to the `sbrk` growth request. -/
def malloc (st : AState) (size : Nat) (sbrkOk : Bool) : Option Nat × AState :=
  if size = 0 then (none, st)
  else
    match get_free_block st.blocks size with
    | some h =>
      (some (h.addr + headerSize), { st with blocks := clearFirstFit st.blocks size })
    | none =>
      let total_size := (headerSize + size) % wordMod
      if sbrkOk then
        (some (st.brk + headerSize),
         { st with
             blocks := st.blocks ++ [{ addr := st.brk, size := size, is_free := false }],
             brk := st.brk + total_size })
      else (none, st)

/-- `free(block)`.  No-op on null.  The header sits at `block -
sizeof(header_t)`; if the payload ends exactly at the program break, the
last header is unlinked (`head == tail` empties the directory, otherwise
the predecessor of the old tail becomes the new tail with a cleared `next`)
and the break is moved down by `size + sizeof(header_t)`; otherwise the
header is only marked free. -/
def free (st : AState) (p : Nat) : AState :=
  if p = 0 then st
  else
    match st.blocks.find? (fun h => h.addr + headerSize == p) with
    | none => st
    | some h =>
      if p + h.size = st.brk then
        { st with blocks := st.blocks.dropLast, brk := st.brk - (h.size + headerSize) }
      else
        { st with blocks := markFreeAt st.blocks h.addr }

/-- `calloc(num, nsize)`.  Null if either count is zero or the `size_t`
product overflows (guard `nsize != size / num`); otherwise delegate to
`malloc` and zero the payload on success. -/
def calloc (st : AState) (num nsize : Nat) (sbrkOk : Bool) : Option Nat × AState :=
  if num = 0 ∨ nsize = 0 then (none, st)
  else
    let size := (num * nsize) % wordMod
    if nsize ≠ size / num then (none, st)
    else
      match malloc st size sbrkOk with
      | (none, st') => (none, st')
      | (some p, st') => (some p, { st' with mem := memset st'.mem p 0 size })

/-- `realloc(block, size)`.  Null or zero-size arguments forward to
`malloc`; a block already big enough is returned as is; otherwise a fresh
`malloc`, on success `memcpy` of the old payload followed by `free` of the
old block, and on failure null with the old block untouched. -/
def realloc (st : AState) (p : Nat) (size : Nat) (sbrkOk : Bool) : Option Nat × AState :=
  if p = 0 ∨ size = 0 then malloc st size sbrkOk
  else
    match st.blocks.find? (fun h => h.addr + headerSize == p) with
    | none => (none, st)
    | some h =>
      if size ≤ h.size then (some p, st)
      else
        match malloc st size sbrkOk with
        | (some q, st') => (some q, free { st' with mem := memcpy st'.mem q p h.size } p)
        | (none, st') => (none, st')

/-- The addresses of the directory's headers, in head-to-tail order. -/
def addrsOf (bs : List Header) : List Nat := bs.map Header.addr

/-- The `next` pointer of the header at address `a` in an address list:
`some link` when a header at `a` exists (`link = none` encoding the C
`NULL` link of the tail, `link = some b` the address of its successor),
`none` when no header at `a` exists. -/
def nextInAddrs : List Nat → Nat → Option (Option Nat)
  | [], _ => none
  | x :: t, a => if x = a then some t.head? else nextInAddrs t a

/-- The `next` pointer of the header at address `a` in the directory. -/
def nextOf (bs : List Header) (a : Nat) : Option (Option Nat) :=
  nextInAddrs (addrsOf bs) a

/-- The recorded size of the header at address `a`, when it exists. -/
def sizeAt : List Header → Nat → Option Nat
  | [], _ => none
  | h :: t, a => if h.addr = a then some h.size else sizeAt t a

/-- Directory well-formedness relative to a base address: headers are laid
out contiguously from `a` (each header is followed by its payload, the next
header starts right after). -/
def chainFrom (a : Nat) : List Header → Bool
  | [] => true
  | h :: t => (h.addr == a) && chainFrom (a + headerSize + h.size) t

/-- The address one past the last payload of a contiguous layout starting
at `a`. -/
def endFrom (a : Nat) : List Header → Nat
  | [] => a
  | h :: t => endFrom (a + headerSize + h.size) t

/-- A well-formed allocator state: the directory is laid out contiguously
from `base` and the program break sits exactly at the end of the last
block.  This is the state shape produced by the allocator itself when no
`size_t` wrap occurs. -/
def wfFrom (base : Nat) (st : AState) : Prop :=
  chainFrom base st.blocks = true ∧ st.brk = endFrom base st.blocks

/-! ### Supporting lemmas -/

theorem malloc_mem (st : AState) (size : Nat) (ok : Bool) :
    (malloc st size ok).2.mem = st.mem := by
  unfold malloc
  split
  · rfl
  · split
    · rfl
    · split <;> rfl

theorem malloc_none {st st' : AState} {size : Nat} {ok : Bool}
    (h : malloc st size ok = (none, st')) : st' = st := by
  unfold malloc at h
  split at h
  · exact (congrArg Prod.snd h).symm
  · split at h
    · exact absurd (congrArg Prod.fst h) (by simp)
    · split at h
      · exact absurd (congrArg Prod.fst h) (by simp)
      · exact (congrArg Prod.snd h).symm

theorem free_mem (st : AState) (p : Nat) : (free st p).mem = st.mem := by
  unfold free
  split
  · rfl
  · split
    · rfl
    · split <;> rfl

theorem free_set_mem (st : AState) (m : Nat → Nat) (p : Nat) :
    free { st with mem := m } p = { free st p with mem := m } := by
  by_cases hp : p = 0
  · simp [free, hp]
  · cases hf : st.blocks.find? (fun h => h.addr + headerSize == p) with
    | none => simp [free, hp, hf]
    | some h =>
      by_cases hc : p + h.size = st.brk <;> simp [free, hp, hf, hc]

theorem clearFirstFit_pairs (bs : List Header) (s : Nat) :
    (clearFirstFit bs s).map (fun x => (x.addr, x.size)) =
      bs.map (fun x => (x.addr, x.size)) := by
  induction bs with
  | nil => rfl
  | cons h t ih =>
    unfold clearFirstFit
    split
    · simp
    · simpa using ih

theorem markFreeAt_pairs (bs : List Header) (a : Nat) :
    (markFreeAt bs a).map (fun x => (x.addr, x.size)) =
      bs.map (fun x => (x.addr, x.size)) := by
  induction bs with
  | nil => rfl
  | cons h t ih =>
    simp only [markFreeAt, List.map_cons, List.map_map] at ih ⊢
    by_cases hx : h.addr = a <;> simp [hx, ih]

theorem addrsOf_clearFirstFit (bs : List Header) (s : Nat) :
    addrsOf (clearFirstFit bs s) = addrsOf bs := by
  induction bs with
  | nil => rfl
  | cons h t ih =>
    unfold clearFirstFit
    split
    · simp [addrsOf]
    · simpa [addrsOf] using ih

theorem addrsOf_markFreeAt (bs : List Header) (a : Nat) :
    addrsOf (markFreeAt bs a) = addrsOf bs := by
  induction bs with
  | nil => rfl
  | cons h t ih =>
    simp only [addrsOf, markFreeAt, List.map_cons, List.map_map] at ih ⊢
    by_cases hx : h.addr = a <;> simp [hx, ih]

theorem sizeAt_clearFirstFit (bs : List Header) (s a : Nat) :
    sizeAt (clearFirstFit bs s) a = sizeAt bs a := by
  induction bs with
  | nil => rfl
  | cons h t ih =>
    unfold clearFirstFit
    split
    · simp [sizeAt]
    · simp [sizeAt, ih]

theorem sizeAt_markFreeAt (bs : List Header) (x a : Nat) :
    sizeAt (markFreeAt bs x) a = sizeAt bs a := by
  induction bs with
  | nil => rfl
  | cons h t ih =>
    unfold markFreeAt at *
    simp only [List.map_cons]
    by_cases hx : h.addr = x
    · simp [sizeAt, hx, ih]
    · simp [sizeAt, hx, ih]

theorem sizeAt_append_left {a : Nat} (l r : List Header) (h : a ∈ addrsOf l) :
    sizeAt (l ++ r) a = sizeAt l a := by
  induction l with
  | nil => simp [addrsOf] at h
  | cons x t ih =>
    by_cases hx : x.addr = a
    · simp [sizeAt, hx]
    · have ht : a ∈ addrsOf t := by
        rcases (List.mem_cons.mp h) with h1 | h1
        · exact absurd h1.symm hx
        · exact h1
      simp [sizeAt, hx, ih ht]

theorem nextInAddrs_append (n : Nat) :
    ∀ (as : List Nat) (a : Nat), a ∈ as →
      nextInAddrs (as ++ [n]) a ≠ nextInAddrs as a →
      nextInAddrs as a = some none ∧ nextInAddrs (as ++ [n]) a = some (some n) := by
  intro as
  induction as with
  | nil => intro a hmem _; cases hmem
  | cons x t ih =>
    intro a hmem hne
    by_cases hx : x = a
    · cases t with
      | nil => subst hx; exact ⟨by simp [nextInAddrs], by simp [nextInAddrs]⟩
      | cons y t' => exact absurd (by subst hx; simp [nextInAddrs]) hne
    · have hmem' : a ∈ t := by
        rcases List.mem_cons.mp hmem with h1 | h1
        · exact absurd h1.symm hx
        · exact h1
      have hne' : nextInAddrs (t ++ [n]) a ≠ nextInAddrs t a := by
        simpa [nextInAddrs, hx] using hne
      simpa [nextInAddrs, hx] using ih a hmem' hne'

theorem nextInAddrs_dropLast :
    ∀ (as : List Nat) (a : Nat), a ∈ as.dropLast →
      nextInAddrs as.dropLast a ≠ nextInAddrs as a →
      nextInAddrs as.dropLast a = some none := by
  intro as
  induction as with
  | nil => intro a hmem _; cases hmem
  | cons x t ih =>
    intro a hmem hne
    cases t with
    | nil => simp [List.dropLast] at hmem
    | cons y t' =>
      by_cases hx : x = a
      · subst hx
        cases t' with
        | nil => simp [List.dropLast, nextInAddrs]
        | cons z t'' => exact absurd (by simp [List.dropLast, nextInAddrs]) hne
      · have hmem' : a ∈ (y :: t').dropLast := by
          have hm2 := hmem
          simp only [List.dropLast, List.mem_cons] at hm2
          rcases hm2 with h1 | h1
          · exact absurd h1.symm hx
          · exact h1
        have hne' : nextInAddrs (y :: t').dropLast a ≠ nextInAddrs (y :: t') a := by
          simpa [List.dropLast, nextInAddrs, hx] using hne
        simpa [List.dropLast, nextInAddrs, hx] using ih a hmem' hne'

theorem le_endFrom (a : Nat) (bs : List Header) : a ≤ endFrom a bs := by
  induction bs generalizing a with
  | nil => exact Nat.le_refl a
  | cons h t ih =>
    simp only [endFrom]
    calc a ≤ a + headerSize + h.size := by omega
      _ ≤ endFrom (a + headerSize + h.size) t := ih _

theorem chain_bounds {a : Nat} {bs : List Header} (hc : chainFrom a bs = true) :
    ∀ x ∈ bs, a ≤ x.addr ∧ x.addr + headerSize + x.size ≤ endFrom a bs := by
  induction bs generalizing a with
  | nil => intro x hx; cases hx
  | cons h t ih =>
    intro x hx
    simp only [chainFrom, Bool.and_eq_true, beq_iff_eq] at hc
    obtain ⟨ha', hct⟩ := hc
    simp only [endFrom]
    cases hx with
    | head =>
      constructor
      · omega
      · rw [ha']
        exact le_endFrom _ t
    | tail _ hxt =>
      obtain ⟨h1, h2⟩ := ih hct x hxt
      constructor
      · omega
      · exact h2

theorem chain_last_of_end {a : Nat} {bs : List Header} {x : Header}
    (hc : chainFrom a bs = true) (hm : x ∈ bs)
    (he : x.addr + headerSize + x.size = endFrom a bs) :
    bs.getLast? = some x := by
  induction bs generalizing a with
  | nil => cases hm
  | cons h t ih =>
    simp only [chainFrom, Bool.and_eq_true, beq_iff_eq] at hc
    obtain ⟨ha', hct⟩ := hc
    cases hm with
    | head =>
      cases t with
      | nil => rfl
      | cons y t' =>
        exfalso
        obtain ⟨hy1, hy2⟩ := chain_bounds hct y (List.mem_cons_self y t')
        have hend : x.addr + headerSize + x.size = endFrom (a + headerSize + x.size) (y :: t') := by
          simpa [endFrom] using he
        have hhs : 0 < headerSize := by decide
        omega
    | tail _ hmt =>
      have hlast : t.getLast? = some x := by
        apply ih hct hmt
        simpa [endFrom] using he
      cases t with
      | nil => cases hmt
      | cons y t' => simpa [List.getLast?_cons_cons] using hlast

theorem find_addr_eq {a : Nat} {bs : List Header} {x : Header}
    (hc : chainFrom a bs = true) (hm : x ∈ bs) :
    bs.find? (fun y => y.addr + headerSize == x.addr + headerSize) = some x := by
  induction bs generalizing a with
  | nil => cases hm
  | cons h t ih =>
    simp only [chainFrom, Bool.and_eq_true, beq_iff_eq] at hc
    obtain ⟨ha', hct⟩ := hc
    by_cases hx : h.addr = x.addr
    · have hxh : x = h := by
        cases hm with
        | head => rfl
        | tail _ hmt =>
          exfalso
          have h1 : a + headerSize + h.size ≤ x.addr := (chain_bounds hct x hmt).1
          have hhs : 0 < headerSize := by decide
          omega
      subst hxh
      simp [List.find?]
    · have hmt : x ∈ t := by
        cases hm with
        | head => exact absurd rfl hx
        | tail _ hmt => exact hmt
      have hne : (h.addr + headerSize == x.addr + headerSize) = false := by
        simp
        omega
      rw [List.find?]
      simp only [hne]
      exact ih hct hmt

theorem addrsOf_dropLast (bs : List Header) :
    addrsOf bs.dropLast = (addrsOf bs).dropLast := by
  induction bs with
  | nil => rfl
  | cons h t ih =>
    cases t with
    | nil => rfl
    | cons y t' =>
      show h.addr :: addrsOf ((y :: t').dropLast) = h.addr :: (addrsOf (y :: t')).dropLast
      rw [ih]

theorem sizeAt_dropLast {bs : List Header} {a : Nat}
    (hmem : a ∈ addrsOf bs.dropLast) :
    sizeAt bs.dropLast a = sizeAt bs a := by
  rcases List.eq_nil_or_concat bs with rfl | ⟨l, x, rfl⟩
  · rfl
  · rw [List.concat_eq_append] at hmem ⊢
    rw [List.dropLast_concat] at hmem ⊢
    exact (sizeAt_append_left l [x] hmem).symm

/-! ### Claim C1: release -/

/-- The release behaviour claimed for a valid payload pointer `h.addr +
headerSize`: the shrink path is taken exactly when the payload ends at the
program break, in which case the tail header (which is `h`) is unlinked and
the break drops by exactly `h.size + headerSize`; otherwise only the free
flag of `h` is set, with directory membership (addresses and sizes) and the
break unchanged; and releasing the null pointer changes nothing. -/
def ReleaseSpec (st : AState) (h : Header) : Prop :=
  (h.addr + headerSize + h.size = st.brk →
     free st (h.addr + headerSize) =
       { st with blocks := st.blocks.dropLast, brk := st.brk - (h.size + headerSize) } ∧
     st.blocks.getLast? = some h ∧
     (free st (h.addr + headerSize)).brk + (h.size + headerSize) = st.brk) ∧
  (h.addr + headerSize + h.size ≠ st.brk →
     free st (h.addr + headerSize) = { st with blocks := markFreeAt st.blocks h.addr } ∧
     (free st (h.addr + headerSize)).blocks.map (fun x => (x.addr, x.size)) =
       st.blocks.map (fun x => (x.addr, x.size)) ∧
     (free st (h.addr + headerSize)).brk = st.brk) ∧
  free st 0 = st

/-- Claim C1: for every pointer `p = h.addr + headerSize` whose header `h`
is in the directory of a well-formed state, `free p` shrinks (unlinking `h`,
which is then the tail, and returning `h.size + headerSize` bytes) exactly
when `p + h.size` equals the program break, and otherwise only marks `h`
free; `free` of the null pointer is a no-op. -/
theorem free_release_spec (base : Nat) (st : AState) (h : Header)
    (hwf : wfFrom base st) (hmem : h ∈ st.blocks) : ReleaseSpec st h := by
  obtain ⟨hchain, hbrk⟩ := hwf
  have hfind : st.blocks.find? (fun y => y.addr + headerSize == h.addr + headerSize) = some h :=
    find_addr_eq hchain hmem
  have hp0 : h.addr + headerSize ≠ 0 := by simp only [headerSize]; omega
  refine ⟨?_, ?_, by simp [free]⟩
  · intro hcond
    have hfree : free st (h.addr + headerSize) =
        { st with blocks := st.blocks.dropLast, brk := st.brk - (h.size + headerSize) } := by
      simp [free, hp0, hfind, hcond]
    have hlast : st.blocks.getLast? = some h := by
      apply chain_last_of_end hchain hmem
      omega
    have hge : h.size + headerSize ≤ st.brk := by omega
    refine ⟨hfree, hlast, ?_⟩
    rw [hfree]
    show st.brk - (h.size + headerSize) + (h.size + headerSize) = st.brk
    omega
  · intro hcond
    have hfree : free st (h.addr + headerSize) =
        { st with blocks := markFreeAt st.blocks h.addr } := by
      simp [free, hp0, hfind, hcond]
    refine ⟨hfree, ?_, ?_⟩
    · rw [hfree]
      exact markFreeAt_pairs st.blocks h.addr
    · rw [hfree]

/-- A concrete well-formed two-block state for the C1 witness: blocks at
1000 (allocated, 64 bytes) and 1080 (free, 32 bytes), break at 1128. -/
def relState : AState :=
  ⟨[⟨1000, 64, false⟩, ⟨1080, 32, true⟩], 1128, fun _ => 0⟩

/-- Witness for C1 at a concrete input. -/
theorem free_release_spec_witness :
    wfFrom 1000 relState ∧ (⟨1000, 64, false⟩ : Header) ∈ relState.blocks ∧
      ReleaseSpec relState ⟨1000, 64, false⟩ :=
  ⟨⟨by decide, by decide⟩, by decide,
   free_release_spec 1000 relState ⟨1000, 64, false⟩ ⟨by decide, by decide⟩ (by decide)⟩

/-! ### Claim C2: first-fit reuse -/

theorem find?_split_clear (bs : List Header) (s : Nat) (h : Header)
    (hf : bs.find? (fun x => x.is_free && decide (s ≤ x.size)) = some h) :
    ∃ l1 l2, bs = l1 ++ h :: l2 ∧
      (∀ x ∈ l1, ¬(x.is_free = true ∧ s ≤ x.size)) ∧
      clearFirstFit bs s = l1 ++ { h with is_free := false } :: l2 := by
  induction bs with
  | nil => cases hf
  | cons b t ih =>
    rw [List.find?] at hf
    by_cases hb : (b.is_free && decide (s ≤ b.size)) = true
    · rw [hb] at hf
      have hbh : b = h := by
        have := hf
        simp only [Option.some.injEq] at this
        exact this
      subst hbh
      refine ⟨[], t, by simp, by simp, ?_⟩
      unfold clearFirstFit
      rw [if_pos hb]
      simp
    · rw [Bool.not_eq_true] at hb
      rw [hb] at hf
      obtain ⟨l1, l2, heq, hnone, hclear⟩ := ih hf
      refine ⟨b :: l1, l2, by simp [heq], ?_, ?_⟩
      · intro x hx
        rcases List.mem_cons.mp hx with rfl | hx'
        · intro ⟨hfree, hsle⟩
          have : (x.is_free && decide (s ≤ x.size)) = true := by
            simp [hfree, hsle]
          rw [this] at hb
          cases hb
        · exact hnone x hx'
      · unfold clearFirstFit
        rw [if_neg (by simp [hb])]
        simp [hclear]

/-- First-fit reuse behaviour of `malloc` (claim C2): the returned header is
in the directory, free and big enough; every strictly earlier header fails
the free-and-fits test; `malloc` (for any break outcome) returns that
header's payload address after clearing only its free flag; and no header's
address or size changes (no split, no carve). -/
def FirstFitSpec (st : AState) (size : Nat) (h : Header) : Prop :=
  h ∈ st.blocks ∧ h.is_free = true ∧ size ≤ h.size ∧
  (∃ l1 l2, st.blocks = l1 ++ h :: l2 ∧
     (∀ x ∈ l1, ¬(x.is_free = true ∧ size ≤ x.size)) ∧
     clearFirstFit st.blocks size = l1 ++ { h with is_free := false } :: l2) ∧
  (∀ ok, malloc st size ok =
     (some (h.addr + headerSize), { st with blocks := clearFirstFit st.blocks size })) ∧
  (clearFirstFit st.blocks size).map (fun x => (x.addr, x.size)) =
    st.blocks.map (fun x => (x.addr, x.size))

/-- The starting state (empty directory, break at 1000) of the reuse
scenario of claim C2. -/
def scenarioInit : AState := ⟨[], 1000, fun _ => 0⟩

/-- The reuse-ordering scenario of claim C2: `a = allocate 64` (payload
1016), `b = allocate 64` (payload 1096), `release a`, and the next
`allocate 64` returns exactly address `a = 1016`. -/
def ReuseScenario : Prop :=
  (malloc scenarioInit 64 true).1 = some 1016 ∧
  (malloc (malloc scenarioInit 64 true).2 64 true).1 = some 1096 ∧
  (malloc (free (malloc (malloc scenarioInit 64 true).2 64 true).2 1016) 64 true).1 =
    some 1016

/-- Claim C2: `malloc` reuses the first free-and-big-enough header in
head-to-tail order, clearing its free flag and returning its payload
address without splitting, carving only when no such header exists; and the
concrete allocate/allocate/release/allocate scenario returns the first
block's address again. -/
theorem malloc_first_fit (st : AState) (size : Nat) (h : Header)
    (hsz : size ≠ 0) (hfind : get_free_block st.blocks size = some h) :
    FirstFitSpec st size h ∧ ReuseScenario := by
  have hfind' : st.blocks.find? (fun x => x.is_free && decide (size ≤ x.size)) = some h := hfind
  have hmem : h ∈ st.blocks := List.mem_of_find?_eq_some hfind'
  have hpred := List.find?_some hfind'
  simp only [Bool.and_eq_true, decide_eq_true_eq] at hpred
  refine ⟨⟨hmem, hpred.1, hpred.2, find?_split_clear st.blocks size h hfind', ?_, ?_⟩, ?_⟩
  · intro ok
    simp [malloc, hsz, hfind]
  · exact clearFirstFit_pairs st.blocks size
  · refine ⟨by decide, by decide, by decide⟩

/-- A two-block state (allocated 32 at 1000, free 64 at 1048) for the C2
witness. -/
def ffState : AState := ⟨[⟨1000, 32, false⟩, ⟨1048, 64, true⟩], 1128, fun _ => 0⟩

/-- Witness for C2 at a concrete input. -/
theorem malloc_first_fit_witness :
    (64 : Nat) ≠ 0 ∧ get_free_block ffState.blocks 64 = some ⟨1048, 64, true⟩ ∧
      (FirstFitSpec ffState 64 ⟨1048, 64, true⟩ ∧ ReuseScenario) :=
  ⟨by decide, by decide,
   malloc_first_fit ffState 64 ⟨1048, 64, true⟩ (by decide) (by decide)⟩

/-! ### Claim C7: calloc's overflow guard -/

/-- Claim C7: for non-zero count and element size, `calloc` returns null
exactly on `size_t` multiplication overflow (`2^64 ≤ num * nsize`) with the
state unchanged — the division guard rejects every overflow — and
otherwise returns whatever `malloc (num * nsize)` returns (same pointer,
directory and break), zero-filling all `num * nsize` payload bytes on
success.  The guard's division happens only in the branch where `num ≠ 0`
has already been established. -/
theorem calloc_overflow_guard (st : AState) (num nsize : Nat) (ok : Bool)
    (hn : num ≠ 0) (hs : nsize ≠ 0) :
    (wordMod ≤ num * nsize → calloc st num nsize ok = (none, st)) ∧
    (num * nsize < wordMod →
       (calloc st num nsize ok).1 = (malloc st (num * nsize) ok).1 ∧
       (calloc st num nsize ok).2.blocks = (malloc st (num * nsize) ok).2.blocks ∧
       (calloc st num nsize ok).2.brk = (malloc st (num * nsize) ok).2.brk ∧
       (∀ q, (calloc st num nsize ok).1 = some q →
          ∀ i, i < num * nsize → (calloc st num nsize ok).2.mem (q + i) = 0)) := by
  have hnpos : 0 < num := Nat.pos_of_ne_zero hn
  constructor
  · intro hov
    have hwpos : 0 < wordMod := by decide
    have hlt : (num * nsize) % wordMod < wordMod := Nat.mod_lt _ hwpos
    have hdiv : (num * nsize) % wordMod / num < nsize := by
      rw [Nat.div_lt_iff_lt_mul hnpos]
      calc (num * nsize) % wordMod < wordMod := hlt
        _ ≤ num * nsize := hov
        _ = nsize * num := Nat.mul_comm _ _
    have hguard : nsize ≠ (num * nsize) % wordMod / num := by omega
    simp [calloc, hn, hs, hguard]
  · intro hsmall
    have hmod : (num * nsize) % wordMod = num * nsize := Nat.mod_eq_of_lt hsmall
    have hguard : ¬(nsize ≠ num * nsize / num) := by
      rw [Nat.mul_div_cancel_left nsize hnpos]
      simp
    have hcal : calloc st num nsize ok =
        match malloc st (num * nsize) ok with
        | (none, st') => (none, st')
        | (some q, st') => (some q, { st' with mem := memset st'.mem q 0 (num * nsize) }) := by
      simp only [calloc, hmod]
      rw [if_neg (by simp [hn, hs]), if_neg hguard]
    rcases hm : malloc st (num * nsize) ok with ⟨r, st'⟩
    rw [hm] at hcal
    cases r with
    | none =>
      rw [hcal]
      exact ⟨rfl, rfl, rfl, fun q hq i _ => Option.noConfusion hq⟩
    | some q =>
      rw [hcal]
      refine ⟨rfl, rfl, rfl, ?_⟩
      intro q' hq' i hi
      have hqq : q = q' := Option.some.inj hq'
      subst hqq
      show memset st'.mem q 0 (num * nsize) (q + i) = 0
      unfold memset
      rw [if_pos ⟨Nat.le_add_right q i, by omega⟩]

/-- An empty-directory state for the C7 witness. -/
def ovState : AState := ⟨[], 1000, fun _ => 0⟩

/-- Witness for C7 at a concrete overflowing input `2^32 * 2^32 = 2^64`. -/
theorem calloc_overflow_guard_witness :
    ((2 : Nat) ^ 32) ≠ 0 ∧ wordMod ≤ (2 : Nat) ^ 32 * 2 ^ 32 ∧
      calloc ovState (2 ^ 32) (2 ^ 32) true = (none, ovState) :=
  ⟨by decide, by decide,
   (calloc_overflow_guard ovState (2 ^ 32) (2 ^ 32) true (by decide) (by decide)).1
     (by decide)⟩

/-! ### Claim C4: resize to a larger size -/

/-- The growth behaviour of `realloc` on a valid pointer (claim C4): if the
inner `malloc` succeeds with pointer `q`, the result is `q` with the first
`h.size` old payload bytes copied to `q` and the old block then released;
if the inner `malloc` fails, the result is null and the state — in
particular the original block — is exactly as before. -/
def ReallocGrowSpec (st : AState) (p size : Nat) (h : Header) (ok : Bool) : Prop :=
  (∀ q st', malloc st size ok = (some q, st') →
     realloc st p size ok =
       (some q, free { st' with mem := memcpy st'.mem q p h.size } p) ∧
     (∀ i, i < h.size → (realloc st p size ok).2.mem (q + i) = st.mem (p + i))) ∧
  (∀ st', malloc st size ok = (none, st') →
     realloc st p size ok = (none, st) ∧ st' = st)

/-- Claim C4: for a non-null pointer with header `h` and `new_size >
h.size`, `realloc` calls `malloc new_size`; on success the returned
pointer's first `h.size` bytes equal the original payload content and the
old block is released; on failure it returns null and the original block is
left untouched and still allocated. -/
theorem realloc_grow (st : AState) (p size : Nat) (h : Header) (ok : Bool)
    (hp : p ≠ 0)
    (hfind : st.blocks.find? (fun y => y.addr + headerSize == p) = some h)
    (hlt : h.size < size) :
    ReallocGrowSpec st p size h ok := by
  have hsz : size ≠ 0 := by omega
  have hnle : ¬(size ≤ h.size) := by omega
  constructor
  · intro q st' hm
    have hre : realloc st p size ok =
        (some q, free { st' with mem := memcpy st'.mem q p h.size } p) := by
      simp [realloc, hp, hsz, hfind, hnle, hm]
    refine ⟨hre, ?_⟩
    intro i hi
    rw [hre]
    show (free { st' with mem := memcpy st'.mem q p h.size } p).mem (q + i) = st.mem (p + i)
    rw [free_mem]
    show memcpy st'.mem q p h.size (q + i) = st.mem (p + i)
    have hmem' : st'.mem = st.mem := by
      have hh := malloc_mem st size ok
      rw [hm] at hh
      exact hh
    unfold memcpy
    rw [if_pos ⟨Nat.le_add_right q i, by omega⟩]
    have hqi : q + i - q = i := by omega
    rw [hqi, hmem']
  · intro st' hm
    have h0 : st' = st := malloc_none hm
    subst h0
    refine ⟨?_, rfl⟩
    simp [realloc, hp, hsz, hfind, hnle, hm]

/-- A one-block state (allocated 64 at 1000, identity byte memory) for the
C4 witness. -/
def rgState : AState := ⟨[⟨1000, 64, false⟩], 1080, fun a => a⟩

/-- Witness for C4 at a concrete input. -/
theorem realloc_grow_witness :
    (1016 : Nat) ≠ 0 ∧
      rgState.blocks.find? (fun y => y.addr + headerSize == 1016) =
        some ⟨1000, 64, false⟩ ∧
      (64 : Nat) < 100 ∧ ReallocGrowSpec rgState 1016 100 ⟨1000, 64, false⟩ true :=
  ⟨by decide, by decide, by decide,
   realloc_grow rgState 1016 100 ⟨1000, 64, false⟩ true (by decide) (by decide) (by decide)⟩

/-! ### Claim C8: zero-size rejection -/

/-- Claim C8: `malloc 0` is null and `calloc` with a zero count or zero
element size is null, in all cases leaving the whole state (directory,
break, memory) untouched. -/
theorem zero_size_null (st : AState) (ok : Bool) (k : Nat) :
    malloc st 0 ok = (none, st) ∧ calloc st 0 k ok = (none, st) ∧
      calloc st k 0 ok = (none, st) :=
  ⟨by simp [malloc], by simp [calloc], by simp [calloc]⟩

/-! ### Claim C6: resize to zero -/

/-- Claim C6: for a non-null pointer, `realloc p 0` forwards to `malloc 0`
and therefore returns null with the state (hence the original block's
header and directory membership) completely unchanged. -/
theorem realloc_zero_forwards (st : AState) (p : Nat) (ok : Bool) (hp : p ≠ 0) :
    realloc st p 0 ok = malloc st 0 ok ∧ realloc st p 0 ok = (none, st) :=
  ⟨by simp [realloc], by simp [realloc, malloc]⟩

/-- A one-block state (allocated, 64 bytes at 1000) for the C6 witness. -/
def rzState : AState := ⟨[⟨1000, 64, false⟩], 1080, fun _ => 0⟩

/-- Witness for C6 at a concrete input. -/
theorem realloc_zero_forwards_witness :
    (1016 : Nat) ≠ 0 ∧ (realloc rzState 1016 0 true = malloc rzState 0 true ∧
      realloc rzState 1016 0 true = (none, rzState)) :=
  ⟨by decide, realloc_zero_forwards rzState 1016 true (by decide)⟩

/-! ### Claim C5: resize within the recorded size -/

/-- A one-block state (allocated, 64 bytes at 1000) for C5. -/
def shrinkState : AState := ⟨[⟨1000, 64, false⟩], 1080, fun _ => 0⟩

/-- Counterexample to C5 as stated: `new_size = 0` satisfies `new_size ≤
recorded size` (0 ≤ 64) yet `realloc` returns null rather than the pointer
itself, because the zero-size test fires before the size comparison. -/
theorem realloc_zero_size_cex :
    (0 : Nat) ≤ 64 ∧ (realloc shrinkState 1016 0 true).1 = none ∧
      (realloc shrinkState 1016 0 true).1 ≠ some 1016 :=
  ⟨by decide, by decide, by decide⟩

/-- Claim C5 as amended: for every non-null pointer and every *non-zero*
`new_size` at most the recorded size, `realloc` returns the pointer itself
and the state is completely unchanged (no copy, no allocation). -/
theorem realloc_within_size (st : AState) (p m : Nat) (h : Header) (ok : Bool)
    (hp : p ≠ 0) (hm : m ≠ 0)
    (hfind : st.blocks.find? (fun y => y.addr + headerSize == p) = some h)
    (hle : m ≤ h.size) :
    realloc st p m ok = (some p, st) := by
  simp [realloc, hp, hm, hfind, hle]

/-- Witness for the amended C5 at a concrete input. -/
theorem realloc_within_size_witness :
    (1016 : Nat) ≠ 0 ∧ (32 : Nat) ≠ 0 ∧
      shrinkState.blocks.find? (fun y => y.addr + headerSize == 1016) =
        some ⟨1000, 64, false⟩ ∧
      (32 : Nat) ≤ 64 ∧ realloc shrinkState 1016 32 true = (some 1016, shrinkState) :=
  ⟨by decide, by decide, by decide, by decide,
   realloc_within_size shrinkState 1016 32 ⟨1000, 64, false⟩ true
     (by decide) (by decide) (by decide) (by decide)⟩

/-! ### Claim C3: the carve path of malloc -/

/-- An empty-directory state for the C3 counterexample. -/
def carveState : AState := ⟨[], 1000, fun _ => 0⟩

/-- Counterexample to C3 as stated: at `size = 2^64 - 1` the request to the
Break Interface is `(headerSize + size) mod 2^64 = 15` bytes, not
`headerSize + size` bytes; the break grows by 15. -/
theorem malloc_request_wraps_cex :
    ((2 : Nat) ^ 64 - 1) ≠ 0 ∧
      get_free_block carveState.blocks (2 ^ 64 - 1) = none ∧
      (malloc carveState (2 ^ 64 - 1) true).2.brk = 1015 ∧
      (1015 : Nat) ≠ carveState.brk + (headerSize + (2 ^ 64 - 1)) :=
  ⟨by decide, by decide, by decide, by decide⟩

/-- Claim C3 as amended (restricted to `headerSize + size` not overflowing
`size_t`): with no reusable free block, `malloc` requests exactly
`headerSize + size` bytes from the break; on failure it returns null with
the state unchanged; on success exactly one header recording the requested
size, not free, is appended after the tail, and the payload pointer is the
new header's address plus the header size. -/
theorem malloc_carve (st : AState) (size : Nat) (ok : Bool)
    (hsz : size ≠ 0) (hnf : get_free_block st.blocks size = none)
    (hov : headerSize + size < wordMod) :
    malloc st size ok =
      if ok then
        (some (st.brk + headerSize),
         { st with blocks := st.blocks ++ [{ addr := st.brk, size := size, is_free := false }],
                   brk := st.brk + (headerSize + size) })
      else (none, st) := by
  have hmod : (headerSize + size) % wordMod = headerSize + size := Nat.mod_eq_of_lt hov
  cases ok <;> simp [malloc, hsz, hnf, hmod]

/-- Witness for the amended C3 at a concrete input. -/
theorem malloc_carve_witness :
    (64 : Nat) ≠ 0 ∧ get_free_block carveState.blocks 64 = none ∧
      headerSize + 64 < wordMod ∧
      malloc carveState 64 true =
        (some (carveState.brk + headerSize),
         { carveState with
             blocks := carveState.blocks ++
               [{ addr := carveState.brk, size := 64, is_free := false }],
             brk := carveState.brk + (headerSize + 64) }) :=
  ⟨by decide, by decide, by decide,
   by simpa using malloc_carve carveState 64 true (by decide) (by decide) (by decide)⟩

/-! ### Claim C10: size_t wrap-around in malloc's total_size -/

/-- An empty-directory state for the C10 witness. -/
def wrapState : AState := ⟨[], 1000, fun _ => 0⟩

/-- Claim C10: for any size above `2^64 - 1 - headerSize`, the computation
`total_size = headerSize + size` wraps modulo `2^64` with no overflow
guard, so `malloc` requests fewer than `size` bytes from the break while
still recording the full requested size in the new header and returning a
non-null pointer; the only validation on `size` is the zero test. -/
theorem malloc_size_wrap (st : AState) (size : Nat)
    (hsz : size ≠ 0) (hbig : wordMod - headerSize ≤ size) (hlt : size < wordMod)
    (hnf : get_free_block st.blocks size = none) :
    (headerSize + size) % wordMod < size ∧
      malloc st size true =
        (some (st.brk + headerSize),
         { st with blocks := st.blocks ++ [{ addr := st.brk, size := size, is_free := false }],
                   brk := st.brk + (headerSize + size) % wordMod }) := by
  have hw : headerSize < wordMod := by decide
  have hwpos : 0 < wordMod := by decide
  have h1 : wordMod ≤ headerSize + size := by omega
  have hmod : (headerSize + size) % wordMod = headerSize + size - wordMod := by
    rw [Nat.mod_eq_sub_mod h1, Nat.mod_eq_of_lt (by omega)]
  constructor
  · omega
  · simp [malloc, hsz, hnf]

/-- Witness for C10 at `size = 2^64 - 1`. -/
theorem malloc_size_wrap_witness :
    ((2 : Nat) ^ 64 - 1) ≠ 0 ∧ wordMod - headerSize ≤ 2 ^ 64 - 1 ∧
      (2 : Nat) ^ 64 - 1 < wordMod ∧
      get_free_block wrapState.blocks (2 ^ 64 - 1) = none ∧
      ((headerSize + (2 ^ 64 - 1)) % wordMod < 2 ^ 64 - 1 ∧
        malloc wrapState (2 ^ 64 - 1) true =
          (some (wrapState.brk + headerSize),
           { wrapState with
               blocks := wrapState.blocks ++
                 [{ addr := wrapState.brk, size := 2 ^ 64 - 1, is_free := false }],
               brk := wrapState.brk + (headerSize + (2 ^ 64 - 1)) % wordMod })) :=
  ⟨by decide, by decide, by decide, by decide,
   malloc_size_wrap wrapState (2 ^ 64 - 1) (by decide) (by decide) (by decide) (by decide)⟩

/-! ### Claim C9: which header fields are mutated -/

theorem malloc_frame (st : AState) (size : Nat) (ok : Bool) (a : Nat)
    (hmem : a ∈ addrsOf st.blocks) :
    sizeAt (malloc st size ok).2.blocks a = sizeAt st.blocks a ∧
    (nextOf (malloc st size ok).2.blocks a ≠ nextOf st.blocks a →
       nextOf st.blocks a = some none ∧
       nextOf (malloc st size ok).2.blocks a = some (some st.brk)) := by
  by_cases hsz : size = 0
  · simp [malloc, hsz]
  · cases hf : get_free_block st.blocks size with
    | some h =>
      have hb : (malloc st size ok).2.blocks = clearFirstFit st.blocks size := by
        simp [malloc, hsz, hf]
      rw [hb]
      refine ⟨sizeAt_clearFirstFit _ _ _, ?_⟩
      intro hne
      exact absurd (by simp only [nextOf]; rw [addrsOf_clearFirstFit]) hne
    | none =>
      cases ok with
      | false =>
        have hb : (malloc st size false).2.blocks = st.blocks := by
          simp [malloc, hsz, hf]
        rw [hb]
        exact ⟨rfl, fun hne => absurd rfl hne⟩
      | true =>
        have hb : (malloc st size true).2.blocks =
            st.blocks ++ [{ addr := st.brk, size := size, is_free := false }] := by
          simp [malloc, hsz, hf]
        rw [hb]
        refine ⟨sizeAt_append_left st.blocks _ hmem, ?_⟩
        intro hne
        have hadd : addrsOf (st.blocks ++
            [({ addr := st.brk, size := size, is_free := false } : Header)]) =
            addrsOf st.blocks ++ [st.brk] := by
          simp [addrsOf]
        simp only [nextOf] at hne ⊢
        rw [hadd] at hne ⊢
        exact nextInAddrs_append st.brk (addrsOf st.blocks) a hmem hne

theorem free_frame (st : AState) (p a : Nat) :
    (a ∈ addrsOf (free st p).blocks →
       sizeAt (free st p).blocks a = sizeAt st.blocks a) ∧
    (a ∈ addrsOf (free st p).blocks →
       nextOf (free st p).blocks a ≠ nextOf st.blocks a →
       nextOf (free st p).blocks a = some none) := by
  by_cases hp : p = 0
  · simp [free, hp]
  · cases hfd : st.blocks.find? (fun h => h.addr + headerSize == p) with
    | none => simp [free, hp, hfd]
    | some h =>
      by_cases hc : p + h.size = st.brk
      · have hb : (free st p).blocks = st.blocks.dropLast := by
          simp [free, hp, hfd, hc]
        rw [hb]
        refine ⟨fun hafter => sizeAt_dropLast hafter, ?_⟩
        intro hafter hne
        simp only [nextOf] at hne ⊢
        rw [addrsOf_dropLast] at hne hafter ⊢
        exact nextInAddrs_dropLast (addrsOf st.blocks) a hafter hne
      · have hb : (free st p).blocks = markFreeAt st.blocks h.addr := by
          simp [free, hp, hfd, hc]
        rw [hb]
        refine ⟨fun _ => sizeAt_markFreeAt _ _ _, ?_⟩
        intro _ hne
        exact absurd (by simp only [nextOf]; rw [addrsOf_markFreeAt]) hne

/-- The header-field frame property (claim C9, amended): across a `malloc`
and a `free`, the recorded size of a header present both before and after
is unchanged; the `next` link of a surviving header changes only when
`malloc` appends the new header after it (the old tail's link goes from
null to the new header's address, the old break) or when release's shrink
path makes it the new tail (its link becomes null). -/
def HeaderFrameSpec (st : AState) (size : Nat) (ok : Bool) (p a : Nat) : Prop :=
  (a ∈ addrsOf st.blocks →
     sizeAt (malloc st size ok).2.blocks a = sizeAt st.blocks a ∧
     (nextOf (malloc st size ok).2.blocks a ≠ nextOf st.blocks a →
        nextOf st.blocks a = some none ∧
        nextOf (malloc st size ok).2.blocks a = some (some st.brk))) ∧
  (a ∈ addrsOf st.blocks →
     (a ∈ addrsOf (free st p).blocks →
        sizeAt (free st p).blocks a = sizeAt st.blocks a) ∧
     (a ∈ addrsOf (free st p).blocks →
        nextOf (free st p).blocks a ≠ nextOf st.blocks a →
        nextOf (free st p).blocks a = some none))

/-- `calloc` and `realloc` touch the directory only through `malloc` and
`free` (their own additional work is on byte memory only), so the frame
property extends to every operation sequence. -/
def WrapperFrame (st : AState) (num nsize size2 p : Nat) (ok : Bool) : Prop :=
  ((calloc st num nsize ok).2.blocks = st.blocks ∨
   (calloc st num nsize ok).2.blocks = (malloc st (num * nsize % wordMod) ok).2.blocks) ∧
  ((realloc st p size2 ok).2.blocks = st.blocks ∨
   (realloc st p size2 ok).2.blocks = (malloc st size2 ok).2.blocks ∨
   (realloc st p size2 ok).2.blocks = (free (malloc st size2 ok).2 p).blocks)

/-- Claim C9 (amended): after creation, a header's recorded size is never
mutated while it remains in the directory, and apart from `is_free` the
only field ever mutated on a surviving header is the `next` link, in
exactly two cases — `malloc`'s append sets the old tail's `next` from null
to the new header, and release's shrink path nulls the `next` of the new
tail; `calloc` and `realloc` mutate the directory only through `malloc` and
`free`. -/
theorem header_fields_frame (st : AState) (size num nsize size2 p a : Nat) (ok : Bool) :
    HeaderFrameSpec st size ok p a ∧ WrapperFrame st num nsize size2 p ok := by
  refine ⟨⟨fun hmem => malloc_frame st size ok a hmem,
           fun _ => free_frame st p a⟩, ?_, ?_⟩
  · by_cases h0 : num = 0 ∨ nsize = 0
    · left
      simp [calloc, h0]
    · simp only [calloc]
      rw [if_neg h0]
      by_cases hg : nsize ≠ num * nsize % wordMod / num
      · left
        rw [if_pos hg]
      · rw [if_neg hg]
        rcases hm : malloc st (num * nsize % wordMod) ok with ⟨r, st'⟩
        cases r with
        | none =>
          right
          rfl
        | some q =>
          right
          rfl
  · by_cases h0 : p = 0 ∨ size2 = 0
    · right
      left
      simp [realloc, h0]
    · cases hfd : st.blocks.find? (fun h => h.addr + headerSize == p) with
      | none =>
        left
        simp [realloc, h0, hfd]
      | some h =>
        by_cases hle : size2 ≤ h.size
        · left
          simp [realloc, h0, hfd, hle]
        · rcases hm : malloc st size2 ok with ⟨r, st'⟩
          cases r with
          | none =>
            right
            left
            have hre : realloc st p size2 ok = (none, st') := by
              simp [realloc, h0, hfd, hle, hm]
            rw [hre]
          | some q =>
            right
            right
            have hre : realloc st p size2 ok =
                (some q, free { st' with mem := memcpy st'.mem q p h.size } p) := by
              simp [realloc, h0, hfd, hle, hm]
            rw [hre]
            show (free { st' with mem := memcpy st'.mem q p h.size } p).blocks =
              (free st' p).blocks
            rw [free_set_mem]

/-- A two-block state for the C9 witness. -/
def frWitState : AState := ⟨[⟨1000, 64, false⟩, ⟨1080, 32, true⟩], 1128, fun _ => 0⟩

/-- Witness for the amended C9 at a concrete input. -/
theorem header_fields_frame_witness :
    HeaderFrameSpec frWitState 64 true 1016 1000 ∧
      WrapperFrame frWitState 3 8 100 1016 true :=
  header_fields_frame frWitState 64 3 8 100 1016 1000 true

/-- An empty-directory state for the C9 counterexample. -/
def frState : AState := ⟨[], 1000, fun _ => 0⟩

/-- Counterexample to C9 as stated: after a second allocation the first
header is still in the directory (its size is still recorded as 64), yet
its `next` field has changed from the null link to the second header's
address 1080 — a mutation of a field other than `is_free` on a header that
was not removed by release's shrink path. -/
theorem header_next_mutates_cex :
    sizeAt (malloc (malloc frState 64 true).2 64 true).2.blocks 1000 = some 64 ∧
    nextOf (malloc frState 64 true).2.blocks 1000 = some none ∧
    nextOf (malloc (malloc frState 64 true).2 64 true).2.blocks 1000 = some (some 1080) ∧
    (some (some 1080) : Option (Option Nat)) ≠ some none :=
  ⟨by decide, by decide, by decide, by decide⟩

end MemAlloc
